import Mathlib

/-!
A verification development for the `dent` statistics library.

The Rust sources are shallowly embedded: 64-bit floating point numbers are
idealised as elements of a linear ordered field (instantiated at `ℚ` where
the claims need executable evaluation, and at `ℝ` where the code uses
transcendental primitives such as `sqrt`, `exp`, `powf` and `lgamma`).
Non-finite inputs (NaN, ±infinity), which the library only ever inspects
through `is_finite`, are represented by the wrapper type `F`.  Fallible Rust
functions returning `Result` are embedded as `Except`/`Option`-valued
functions; the unbounded recursion of `inc_beta` is made total with an
explicit fuel parameter whose exhaustion (`none`) witnesses that the source
recursion has not returned within that call depth.
-/

attribute [local semireducible] Rat.add Rat.mul Rat.inv Rat.sub Rat.ofScientific

deriving instance DecidableEq for Except

namespace Dent

/-- The error enumeration of `src/error.rs`. -/
inductive Error : Type where
  | badSample
  | diverged
  | emptySample
  | undefined
deriving DecidableEq, Repr

/-- A 64-bit float as the library observes it: either a finite value (idealised
as an element of `α`) or one of the non-finite values rejected by
`is_finite`.  The payloads of `nan`/`inf`/`negInf` are never read by the
embedded code except through `isFinite`. -/
inductive F (α : Type) : Type where
  | fin (v : α)
  | nan
  | inf
  | negInf
deriving DecidableEq, Repr

/-- `is_finite` of `f64`. -/
def F.isFinite {α : Type} : F α → Bool
  | .fin _ => true
  | _ => false

/-- Read a finite float's value; the default `0` is only reachable for
non-finite inputs, which every caller below has already rejected. -/
def F.val {α : Type} [Zero α] : F α → α
  | .fin v => v
  | _ => 0

section Num

variable {α : Type} [LinearOrderedField α]

/-- `INC_BETA_CF_APPX_ZERO = 1e-30` (`src/num.rs`). -/
def INC_BETA_CF_APPX_ZERO (α : Type) [LinearOrderedField α] : α := 1 / 10 ^ 30

/-- `INC_BETA_CONVERGENCE_LIMIT = 1e-15` (`src/num.rs`). -/
def INC_BETA_CONVERGENCE_LIMIT (α : Type) [LinearOrderedField α] : α := 1 / 10 ^ 15

/-- `INC_BETA_MAX_ITER = 1000` (`src/num.rs`). -/
def INC_BETA_MAX_ITER : ℕ := 1000

/-- Even terms of the continued fraction (`cf_d_even` in `src/num.rs`). -/
def cf_d_even (m x a b : α) : α :=
  (m * (b - m) * x) / ((a + 2 * m - 1) * (a + 2 * m))

/-- Odd terms of the continued fraction (`cf_d_odd` in `src/num.rs`). -/
def cf_d_odd (m x a b : α) : α :=
  -((a + m) * (a + b + m) * x) / ((a + 2 * m) * (a + 2 * m + 1))

/-- The sequence `d_i` of `src/num.rs` (`cf_d`); `i/2` and `(i-1)/2` are the
truncating `usize` divisions of the source. -/
def cf_d (i : ℕ) (x a b : α) : α :=
  if i % 2 = 0 then cf_d_even ((i / 2 : ℕ) : α) x a b
  else cf_d_odd (((i - 1) / 2 : ℕ) : α) x a b

variable [DecidableRel ((· < ·) : α → α → Prop)]

/-- One step of the modified Lentz evaluation (`inc_beta_cf_step` in
`src/num.rs`): from the state `(f0, c0, d0)` before iteration `i`, the
next `(f, c, d, del)`. -/
def inc_beta_cf_step (x a b : α) (i : ℕ) (f0 c0 d0 : α) : α × α × α × α :=
  let cf_num : α := if i = 1 then 1 else cf_d (i - 1) x a b
  let d1 : α := 1 + cf_num * d0
  let d2 : α := if |d1| < INC_BETA_CF_APPX_ZERO α then INC_BETA_CF_APPX_ZERO α else d1
  let d : α := d2⁻¹
  let c1 : α := 1 + cf_num / c0
  let c : α := if |c1| < INC_BETA_CF_APPX_ZERO α then INC_BETA_CF_APPX_ZERO α else c1
  let del : α := c * d
  (f0 * del, c, d, del)

/-- The `for i in 1..INC_BETA_MAX_ITER` loop of `inc_beta_cf` (`src/num.rs`),
embedded with the remaining iteration count `rem` made explicit and
instrumented with the number of loop iterations actually executed.  On the
iteration whose `del` meets the convergence limit the source returns the
*previous* value `f`, not the freshly updated `next.0`. -/
def inc_beta_cf_run (x a b : α) : ℕ → ℕ → α → α → α → Option α × ℕ
  | 0, _, _, _, _ => (none, 0)
  | rem + 1, i, f, c, d =>
    let next := inc_beta_cf_step x a b i f c d
    if |next.2.2.2 - 1| < INC_BETA_CONVERGENCE_LIMIT α then (some f, 1)
    else
      let r := inc_beta_cf_run x a b rem (i + 1) next.1 next.2.1 next.2.2.1
      (r.1, r.2 + 1)

/-- `inc_beta_cf` of `src/num.rs`: `none` models `Err(())` (surfaced as
`Diverged`).  The source loop `for i in 1..1000` executes the loop body for
`i = 1, …, 999`. -/
def inc_beta_cf (x a b : α) : Option α :=
  (inc_beta_cf_run x a b (INC_BETA_MAX_ITER - 1) 1
    (INC_BETA_CF_APPX_ZERO α) (INC_BETA_CF_APPX_ZERO α) 0).1

/-- How many loop iterations `inc_beta_cf` executes before returning. -/
def inc_beta_cf_iters (x a b : α) : ℕ :=
  (inc_beta_cf_run x a b (INC_BETA_MAX_ITER - 1) 1
    (INC_BETA_CF_APPX_ZERO α) (INC_BETA_CF_APPX_ZERO α) 0).2

/-- The state `(f, c, d)` of the Lentz loop after `k` executed iterations,
unrolled without the early return (the early return does not alter the
states that are reached, only where the loop stops). -/
def cfState (x a b : α) : ℕ → α × α × α
  | 0 => (INC_BETA_CF_APPX_ZERO α, INC_BETA_CF_APPX_ZERO α, 0)
  | k + 1 =>
    let s := cfState x a b k
    let next := inc_beta_cf_step x a b (k + 1) s.1 s.2.1 s.2.2
    (next.1, next.2.1, next.2.2.1)

/-- The factor `del = c * d` computed by iteration `i ≥ 1` of the loop. -/
def cfDel (x a b : α) (i : ℕ) : α :=
  let s := cfState x a b (i - 1)
  (inc_beta_cf_step x a b i s.1 s.2.1 s.2.2).2.2.2

/-- Iteration `i` meets the convergence criterion `|c·d − 1| < 1e-15`. -/
def cfConvAt (x a b : α) (i : ℕ) : Prop :=
  |cfDel x a b i - 1| < INC_BETA_CONVERGENCE_LIMIT α

instance (x a b : α) (i : ℕ) : Decidable (cfConvAt x a b i) := by
  unfold cfConvAt; infer_instance

/-- The loop as claim C4 reads the return convention: on the converging
iteration it returns the freshly updated value `next.0 = f·(c·d)`, i.e.
*including* the final factor.  Written from the claim's words, to be
compared with the source loop `inc_beta_cf_run`. -/
def inc_beta_cf_spec_run (x a b : α) : ℕ → ℕ → α → α → α → Option α
  | 0, _, _, _, _ => none
  | rem + 1, i, f, c, d =>
    let next := inc_beta_cf_step x a b i f c d
    if |next.2.2.2 - 1| < INC_BETA_CONVERGENCE_LIMIT α then some next.1
    else inc_beta_cf_spec_run x a b rem (i + 1) next.1 next.2.1 next.2.2.1

/-- `inc_beta_cf` under claim C4's return convention. -/
def inc_beta_cf_spec (x a b : α) : Option α :=
  inc_beta_cf_spec_run x a b (INC_BETA_MAX_ITER - 1) 1
    (INC_BETA_CF_APPX_ZERO α) (INC_BETA_CF_APPX_ZERO α) 0

end Num

section RealNum

/-- `ln_gamma` of `src/num.rs`: the C library `lgamma`, i.e. the natural log
of the absolute value of the gamma function (`Real.log` already takes the
log of the absolute value). -/
noncomputable def ln_gamma (z : ℝ) : ℝ := Real.log (Real.Gamma z)

/-- `beta` of `src/num.rs`. -/
noncomputable def beta (a b : ℝ) : ℝ :=
  Real.exp (ln_gamma a + ln_gamma b - ln_gamma (a + b))

/-- `inc_beta` of `src/num.rs`, with an explicit fuel for its unbounded
recursion: `none` means the recursion has not returned within `gas` nested
calls, so `(∀ gas, inc_beta gas x a b = none)` witnesses non-termination.
`x ^ a` is real (`powf`) exponentiation.

Modelled from the spec: the error values.  `src/num.rs` returns a bare
`Err(())`, and the conversion into `Error` (spec §4.2: domain failures
surface as `Undefined`, continued-fraction failures as `Diverged`) lives in
the crate root, which is not among the staged sources. -/
noncomputable def inc_beta : ℕ → ℝ → ℝ → ℝ → Option (Except Error ℝ)
  | 0, _, _, _ => none
  | gas + 1, x, a, b =>
    if x < 0 then some (.error .undefined)
    else if 1 < x then some (.error .undefined)
    else
      let bound := (a + 1) / (a + b + 2)
      if x < bound then
        let coeff := (x ^ a * (1 - x) ^ b) / (a * beta a b)
        some (match inc_beta_cf x a b with
          | some cf => .ok (coeff * cf)
          | none => .error .diverged)
      else
        (inc_beta gas (1 - x) b a).map (fun r => r.map (fun v => 1 - v))

end RealNum

section SummaryDefs

variable {α : Type} [LinearOrderedField α] [FloorRing α]
variable [DecidableRel ((· < ·) : α → α → Prop)]
variable [DecidableRel ((· ≤ ·) : α → α → Prop)]

/-- The `Summarizer` of `src/summary.rs`: the owned, validated, sorted
sample.  Sorting is by the total order on finite values; since that order
is linear, the sorted permutation is unique as a list of values, so any
sorting algorithm embeds `sort_by` faithfully. -/
structure Summarizer (α : Type) : Type where
  data : List α
deriving DecidableEq

/-- `Summarizer::new` (`src/summary.rs`). -/
def Summarizer.new (l : List (F α)) : Except Error (Summarizer α) :=
  if l.isEmpty then .error .emptySample
  else if l.any (fun x => ! x.isFinite) then .error .badSample
  else .ok ⟨List.insertionSort (· ≤ ·) (l.map F.val)⟩

/-- `size` as a field element (`self.data.len() as f64`). -/
def Summarizer.size (s : Summarizer α) : α := (s.data.length : α)

/-- `min`: `self.data[0]`.  `getD`'s default is unreachable on constructed
summarizers, whose data is non-empty. -/
def Summarizer.min (s : Summarizer α) : α := s.data.getD 0 0

/-- `max`: `self.data[self.data.len() - 1]`. -/
def Summarizer.max (s : Summarizer α) : α := s.data.getD (s.data.length - 1) 0

/-- `mean` (`src/summary.rs`). -/
def Summarizer.mean (s : Summarizer α) : α := s.data.sum / s.size

/-- `median` (`src/summary.rs`). -/
def Summarizer.median (s : Summarizer α) : α :=
  let n := s.data.length
  if n % 2 = 0 then (s.data.getD (n / 2 - 1) 0 + s.data.getD (n / 2) 0) / 2
  else s.data.getD ((n - 1) / 2) 0

/-- `percentile` (`src/summary.rs`).  The embedded argument `p : α` is
always a finite value, so the source's leading `!p.is_finite()` rejection
has no embedded counterpart.  `rank.fract()` and `rank.floor() as usize`
agree with `Int.fract` and `⌊rank⌋.toNat` because `rank = (size − 1)·p ≥ 0`
whenever it is read (the guard has already enforced `0 ≤ p`, and a
constructed summarizer has `size ≥ 1`; on the junk inputs violating that,
both sides are still total functions). -/
def Summarizer.percentile (s : Summarizer α) (p : α) : Except Error α :=
  if p < 0 ∨ 1 < p then .error .undefined
  else
    let rank := (s.size - 1) * p
    let frac := Int.fract rank
    let i := (⌊rank⌋).toNat
    let j := i + 1
    if j = s.data.length then .ok (s.data.getD i 0)
    else
      let xi := s.data.getD i 0
      let xj := s.data.getD j 0
      .ok (xi + frac * (xj - xi))

/-- `unwrap_or_else(|_| unreachable!())` on an `Except` whose error case the
source has argued cannot occur; the default is the unreachable branch. -/
def okD (e : Except Error α) (dflt : α) : α :=
  match e with
  | .ok v => v
  | .error _ => dflt

/-- `lower_quartile`: `percentile(0.25)`, statically in-domain. -/
def Summarizer.lower_quartile (s : Summarizer α) : α := okD (s.percentile (1 / 4)) 0

/-- `upper_quartile`: `percentile(0.75)`, statically in-domain. -/
def Summarizer.upper_quartile (s : Summarizer α) : α := okD (s.percentile (3 / 4)) 0

/-- `iqr` (`src/summary.rs`). -/
def Summarizer.iqr (s : Summarizer α) : α := s.upper_quartile - s.lower_quartile

/-- `min_adjacent`: first (in sorted order) datum within the lower Tukey
fence. -/
def Summarizer.min_adjacent (s : Summarizer α) : α :=
  let lower_outlier_bound := s.lower_quartile - (3 / 2) * s.iqr
  (s.data.find? (fun x => decide (lower_outlier_bound ≤ x))).getD 0

/-- `max_adjacent`: last (scanning from the top) datum within the upper
Tukey fence. -/
def Summarizer.max_adjacent (s : Summarizer α) : α :=
  let upper_outlier_bound := s.upper_quartile + (3 / 2) * s.iqr
  (s.data.reverse.find? (fun x => decide (x ≤ upper_outlier_bound))).getD 0

/-- `range` (`src/summary.rs`). -/
def Summarizer.range (s : Summarizer α) : α := s.max - s.min

/-- `unbiased_variance` (`src/summary.rs`); `powi(2)` is `^ 2`. -/
def Summarizer.unbiased_variance (s : Summarizer α) : α :=
  (1 / (s.size - 1)) * ((s.data.map (fun x => (x - s.mean) ^ 2)).sum)

/-- `standard_deviation` (`src/summary.rs`); needs a real square root, so it
is defined at `ℝ`. -/
noncomputable def Summarizer.standard_deviation (s : Summarizer ℝ) : ℝ :=
  Real.sqrt s.unbiased_variance

/-- `standard_error` (`src/summary.rs`). -/
noncomputable def Summarizer.standard_error (s : Summarizer ℝ) : ℝ :=
  s.standard_deviation / Real.sqrt s.size

end SummaryDefs

/-- The `Summary` of `src/summary.rs`: every statistic precomputed. -/
structure Summary : Type where
  iqr : ℝ
  len : ℕ
  lower_quartile : ℝ
  min : ℝ
  min_adjacent : ℝ
  max : ℝ
  max_adjacent : ℝ
  mean : ℝ
  median : ℝ
  range : ℝ
  standard_deviation : ℝ
  standard_error : ℝ
  unbiased_variance : ℝ
  upper_quartile : ℝ

/-- `Summary::new` (`src/summary.rs`): construct the underlying summarizer
(threading its failures unchanged through `?`) and snapshot every query. -/
noncomputable def Summary.new (l : List (F ℝ)) : Except Error Summary :=
  (Summarizer.new l).map (fun s =>
    { iqr := s.iqr
      len := s.data.length
      lower_quartile := s.lower_quartile
      min := s.min
      min_adjacent := s.min_adjacent
      max := s.max
      max_adjacent := s.max_adjacent
      mean := s.mean
      median := s.median
      range := s.range
      upper_quartile := s.upper_quartile
      unbiased_variance := s.unbiased_variance
      standard_deviation := s.standard_deviation
      standard_error := s.standard_error })

/-- `Summary::size` (`src/summary.rs`). -/
def Summary.size (s : Summary) : ℝ := (s.len : ℝ)

/-- The `TTest` result record of `src/t_test.rs`. -/
structure TTest : Type where
  p : ℝ
  t : ℝ
  df : ℝ

/-- `t_atv` of `src/t_test.rs`: `A(t|ν)`, via the regularized incomplete
beta function; failures of the latter propagate through `?`. -/
noncomputable def t_atv (gas : ℕ) (t df : ℝ) : Option (Except Error ℝ) :=
  let x := df / (df + t ^ 2)
  let a := 0.5 * df
  let b := (0.5 : ℝ)
  (inc_beta gas x a b).map (fun r => r.map (fun ib => 1 - ib))

/-- `t_test_2_sided` of `src/t_test.rs`: `p = 1 − A(|t|, df)`. -/
noncomputable def t_test_2_sided (gas : ℕ) (t df : ℝ) : Option (Except Error TTest) :=
  (t_atv gas |t| df).map (fun r => r.map (fun atv => { p := 1 - atv, t := t, df := df }))

/-- `welch_satterthwaite_df` of `src/t_test.rs`. -/
noncomputable def welch_satterthwaite_df (var1 n1 var2 n2 : ℝ) : ℝ :=
  let df1 := n1 - 1
  let df2 := n2 - 1
  let num := ((var1 / n1) + (var2 / n2)) ^ 2
  let den := var1 ^ 2 / (n1 ^ 2 * df1) + var2 ^ 2 / (n2 ^ 2 * df2)
  num / den

/-- `welch_t_statistic` of `src/t_test.rs`. -/
noncomputable def welch_t_statistic (s1 s2 : Summary) : ℝ × ℝ :=
  let n1 := s1.size
  let m1 := s1.mean
  let var1 := s1.unbiased_variance
  let n2 := s2.size
  let m2 := s2.mean
  let var2 := s2.unbiased_variance
  let s_delta_bar := Real.sqrt ((var1 / n1) + (var2 / n2))
  let t := (m1 - m2) / s_delta_bar
  let df := welch_satterthwaite_df var1 n1 var2 n2
  (t, df)

/-- `welch_t_test` of `src/t_test.rs`. -/
noncomputable def welch_t_test (gas : ℕ) (s1 s2 : Summary) : Option (Except Error TTest) :=
  let td := welch_t_statistic s1 s2
  t_test_2_sided gas td.1 td.2

/-- The `LinearRegression` result record of `src/lr.rs`. -/
structure LinearRegression : Type where
  intercept : ℝ
  r : ℝ
  slope : ℝ
  standard_error : ℝ

/-- `LinearRegression::simple_lr` (`src/lr.rs`).  The marginal sequences are
validated through `Summarizer::new`; on the success path every element is
finite, so reading the raw values through `F.val` is the identity
embedding of the source's direct indexing `x[i]`, `y[i]`. -/
noncomputable def LinearRegression.simple_lr (data : List (F ℝ × F ℝ)) :
    Except Error LinearRegression :=
  let n : ℝ := (data.length : ℝ)
  let x := data.map Prod.fst
  let y := data.map Prod.snd
  (Summarizer.new x).bind (fun summ_x =>
    (Summarizer.new y).bind (fun summ_y =>
      let mean_x := summ_x.mean
      let mean_y := summ_y.mean
      let std_x := summ_x.standard_deviation
      let std_y := summ_y.standard_deviation
      let xv := x.map F.val
      let yv := y.map F.val
      let r_num := ((List.range x.length).map
        (fun i => (xv.getD i 0 - mean_x) * (yv.getD i 0 - mean_y))).sum
      let r_den := (n - 1) * std_x * std_y
      let r := r_num / r_den
      let slope := r * (std_y / std_x)
      let intercept := mean_y - slope * mean_x
      let df := n - 2
      let standard_error := (slope / Real.sqrt df) * Real.sqrt (1 / r ^ 2 - 1)
      .ok { intercept := intercept, r := r, slope := slope,
            standard_error := standard_error }))

/-- `LinearRegression::new` (`src/lr.rs`). -/
noncomputable def LinearRegression.new (data : List (F ℝ × F ℝ)) :
    Except Error LinearRegression :=
  if data.isEmpty then .error .emptySample
  else LinearRegression.simple_lr data

section NumThms

variable {α : Type} [LinearOrderedField α]
variable [DecidableRel ((· < ·) : α → α → Prop)]


/-- Master characterisation of the embedded loop, by induction on the
remaining fuel: started at iteration `i` in the state reached after `i - 1`
iterations, the loop returns the pre-update `f` of the first converging
iteration among the next `rem` ones (and `none`, after executing all `rem`
iterations, when none of them converges). -/
theorem inc_beta_cf_run_spec (x a b : α) :
    ∀ (rem i : ℕ), 1 ≤ i →
      inc_beta_cf_run x a b rem i (cfState x a b (i - 1)).1
          (cfState x a b (i - 1)).2.1 (cfState x a b (i - 1)).2.2 =
        (match (List.range' i rem).find? (fun j => decide (cfConvAt x a b j)) with
          | some j => (some (cfState x a b (j - 1)).1, j + 1 - i)
          | none => (none, rem)) := by
  intro rem
  induction rem with
  | zero => intro i _; simp [inc_beta_cf_run, List.range']
  | succ rem ih =>
    intro i hi
    rw [List.range'_succ]
    by_cases hconv : cfConvAt x a b i
    · have hdel :
        |(inc_beta_cf_step x a b i (cfState x a b (i - 1)).1 (cfState x a b (i - 1)).2.1
            (cfState x a b (i - 1)).2.2).2.2.2 - 1| < INC_BETA_CONVERGENCE_LIMIT α := hconv
      simp [inc_beta_cf_run, hdel, List.find?, hconv]
    · have hdel :
        ¬ |(inc_beta_cf_step x a b i (cfState x a b (i - 1)).1 (cfState x a b (i - 1)).2.1
            (cfState x a b (i - 1)).2.2).2.2.2 - 1| < INC_BETA_CONVERGENCE_LIMIT α := hconv
      have hstate : cfState x a b i =
          ((inc_beta_cf_step x a b i (cfState x a b (i - 1)).1 (cfState x a b (i - 1)).2.1
              (cfState x a b (i - 1)).2.2).1,
            (inc_beta_cf_step x a b i (cfState x a b (i - 1)).1 (cfState x a b (i - 1)).2.1
              (cfState x a b (i - 1)).2.2).2.1,
            (inc_beta_cf_step x a b i (cfState x a b (i - 1)).1 (cfState x a b (i - 1)).2.1
              (cfState x a b (i - 1)).2.2).2.2.1) := by
        conv_lhs => rw [show i = (i - 1) + 1 by omega]
        simp only [cfState]
        rw [show i - 1 + 1 = i by omega]
      have ihi := ih (i + 1) (by omega)
      rw [show i + 1 - 1 = i by omega] at ihi
      rw [hstate] at ihi
      simp only [inc_beta_cf_run, hdel, if_false, List.find?, hconv, decide_eq_true_eq,
        ihi]
      cases hfind : (List.range' (i + 1) rem).find? (fun j => decide (cfConvAt x a b j)) with
      | none => simp [hfind]
      | some j =>
        have hj : i + 1 ≤ j := by
          have := List.find?_some hfind
          have hmem := List.mem_of_find?_eq_some hfind
          have := List.mem_range'_1.mp hmem
          omega
        simp [hfind]
        omega

/-- `inc_beta_cf` as the first converging iteration among `i = 1, …, 999`:
the loop returns the pre-update `f` of that iteration, and `none` when no
iteration in that range converges. -/
theorem inc_beta_cf_eq_find (x a b : α) :
    inc_beta_cf x a b =
      ((List.range' 1 999).find? (fun j => decide (cfConvAt x a b j))).map
        (fun j => (cfState x a b (j - 1)).1) := by
  have h := inc_beta_cf_run_spec x a b 999 1 (by omega)
  unfold inc_beta_cf
  show (inc_beta_cf_run x a b 999 1 (cfState x a b 0).1 (cfState x a b 0).2.1
      (cfState x a b 0).2.2).1 = _
  rw [h]
  cases (List.range' 1 999).find? (fun j => decide (cfConvAt x a b j)) <;> simp

/-- When no iteration converges, all `999` loop iterations are executed. -/
theorem inc_beta_cf_iters_of_none (x a b : α) (h : inc_beta_cf x a b = none) :
    inc_beta_cf_iters x a b = 999 := by
  have hs := inc_beta_cf_run_spec x a b 999 1 (by omega)
  rw [inc_beta_cf_eq_find] at h
  unfold inc_beta_cf_iters
  show (inc_beta_cf_run x a b 999 1 (cfState x a b 0).1 (cfState x a b 0).2.1
      (cfState x a b 0).2.2).2 = _
  rw [hs]
  cases hfind : (List.range' 1 999).find? (fun j => decide (cfConvAt x a b j)) with
  | none => simp
  | some j => rw [hfind] at h; simp at h


/-- Helper for C1/C2: at `x = 1/2, a = b = 1` the argument sits exactly on
the switch point `bound = (1+1)/(1+1+2) = 1/2`, so the symmetric branch is
taken and the recursive call has the *same* arguments: the recursion never
returns, whatever the call depth. -/
theorem inc_beta_half_one_one_loops : ∀ gas : ℕ, inc_beta gas (1 / 2) 1 1 = none := by
  intro gas
  induction gas with
  | zero => rfl
  | succ g ih =>
    have h1 : ¬ ((1 : ℝ) / 2 < 0) := by norm_num
    have h2 : ¬ ((1 : ℝ) < 1 / 2) := by norm_num
    have h3 : ¬ ((1 : ℝ) / 2 < (1 + 1) / (1 + 1 + 2)) := by norm_num
    simp only [inc_beta, if_neg h1, if_neg h2, if_neg h3]
    rw [show (1 : ℝ) - 1 / 2 = 1 / 2 by norm_num, ih]
    rfl

/-- C1: the claim expects `inc_beta(0.5, 1.0, 1.0) = Ok(0.5)`, but on these
arguments the source recurses with identical arguments forever (`none` at
every fuel). -/
theorem inc_beta_at_half_one_one_never_returns :
    ∀ gas : ℕ, inc_beta gas (1 / 2) 1 1 = none :=
  inc_beta_half_one_one_loops

/-- C2 counterexample: at `x = 1/2, a = b = 1` (in-domain) the symmetric
branch is taken (`¬ x < bound`), the recursive call's arguments
`(1 − x, b, a)` coincide with the original ones, and with fuel for a
depth-1 recursion the evaluation does not return, refuting both the
depth-exactly-1 and the termination parts of the claim. -/
theorem inc_beta_symmetric_branch_repeats_at_bound :
    ¬ ((1 : ℝ) / 2 < (1 + 1) / (1 + 1 + 2)) ∧ ((1 : ℝ) - 1 / 2 = 1 / 2) ∧
      inc_beta 2 (1 / 2) 1 1 = none :=
  ⟨by norm_num, by norm_num, inc_beta_half_one_one_loops 2⟩

/-- C2 (amended): whenever the symmetric branch is entered with `x`
*strictly* above the switch point (and `a + b + 2 ≠ 0`, so the bound is a
genuine quotient), the recursive call lands strictly below its own switch
point — the direct branch — and the recursion terminates at depth 1. -/
theorem inc_beta_symmetric_branch_recurses_once
    (x a b : ℝ) (h0 : 0 ≤ x) (h1 : x ≤ 1) (hs : a + b + 2 ≠ 0)
    (hb : (a + 1) / (a + b + 2) < x) :
    1 - x < (b + 1) / (b + a + 2) ∧ ∀ gas : ℕ, inc_beta (gas + 2) x a b ≠ none := by
  have key : 1 - x < (b + 1) / (b + a + 2) := by
    rcases lt_or_gt_of_ne hs with hneg | hpos
    · have hb' : a + 1 > x * (a + b + 2) := by
        have := (div_lt_iff_of_neg hneg).mp hb
        linarith [this]
      rw [lt_div_iff_of_neg (by linarith : b + a + 2 < 0)]
      nlinarith
    · have hb' : a + 1 < x * (a + b + 2) := by
        have := (div_lt_iff₀ hpos).mp hb
        linarith [this]
      rw [lt_div_iff₀ (by linarith : (0 : ℝ) < b + a + 2)]
      nlinarith
  refine ⟨key, ?_⟩
  intro gas
  have hx0 : ¬ x < 0 := not_lt.mpr h0
  have hx1 : ¬ (1 : ℝ) < x := not_lt.mpr h1
  have hxb : ¬ x < (a + 1) / (a + b + 2) := not_lt.mpr (le_of_lt hb)
  have hy0 : ¬ (1 - x) < 0 := not_lt.mpr (by linarith)
  have hy1 : ¬ (1 : ℝ) < 1 - x := not_lt.mpr (by linarith)
  simp only [inc_beta, if_neg hx0, if_neg hx1, if_neg hxb, if_pos key, if_neg hy0,
    if_neg hy1]
  cases inc_beta_cf (1 - x) b a <;> simp

/-- C3 (amended): the continued-fraction evaluator fails exactly when none
of the 999 executed iterations (`i = 1, …, 999`: the source loop is
`for i in 1..1000`) meets the convergence criterion — if the criterion is
met at any of those iterations it returns a value — and on failure exactly
999 (not 1000) iterations have elapsed. -/
theorem inc_beta_cf_diverged_iff_999 (x a b : ℚ) :
    (inc_beta_cf x a b = none ↔ ∀ i : ℕ, 1 ≤ i → i ≤ 999 → ¬ cfConvAt x a b i) ∧
    (inc_beta_cf x a b = none → inc_beta_cf_iters x a b = 999) := by
  refine ⟨?_, inc_beta_cf_iters_of_none x a b⟩
  rw [inc_beta_cf_eq_find]
  cases hfind : (List.range' 1 999).find? (fun j => decide (cfConvAt x a b j)) with
  | none =>
    simp only [hfind, Option.map_none']
    constructor
    · intro _ i hi1 hi9
      have := List.find?_eq_none.mp hfind i (List.mem_range'_1.mpr ⟨hi1, by omega⟩)
      simpa using this
    · intro _; trivial
  | some j =>
    have hmem := List.mem_of_find?_eq_some hfind
    have hj := List.mem_range'_1.mp hmem
    have hp := List.find?_some hfind
    simp only [hfind, Option.map_some']
    constructor
    · intro h; simp at h
    · intro h
      exact absurd (by simpa using hp) (h j hj.1 (by omega))

set_option maxRecDepth 100000 in
set_option maxHeartbeats 4000000 in
/-- C3 counterexample: at `(x, a, b) = (1, 1, 1/2)` the evaluator fails
with the divergence error, yet only 999 loop iterations — not the 1000 the
claim describes — have elapsed. -/
theorem inc_beta_cf_fails_after_999_iterations :
    inc_beta_cf (1 : ℚ) 1 (1 / 2) = none ∧ inc_beta_cf_iters (1 : ℚ) 1 (1 / 2) = 999 := by
  have h : inc_beta_cf (1 : ℚ) 1 (1 / 2) = none := by decide
  exact ⟨h, inc_beta_cf_iters_of_none _ _ _ h⟩

/-- C4 (amended): each iteration updates `d`, `c` and `f` exactly as the
claim describes, but on the iteration whose `|c·d − 1| < 1e-15` the
evaluator returns the value of `f` from *before* that iteration's update:
the returned value does not include the final `c·d` factor. -/
theorem inc_beta_cf_returns_pre_update_f (x a b v : ℚ)
    (h : inc_beta_cf x a b = some v) :
    ∃ i, 1 ≤ i ∧ i ≤ 999 ∧ cfConvAt x a b i ∧
      (∀ j, 1 ≤ j → j < i → ¬ cfConvAt x a b j) ∧ v = (cfState x a b (i - 1)).1 := by
  rw [inc_beta_cf_eq_find] at h
  cases hfind : (List.range' 1 999).find? (fun j => decide (cfConvAt x a b j)) with
  | none => rw [hfind] at h; simp at h
  | some j =>
    rw [hfind] at h
    simp only [Option.map_some', Option.some.injEq] at h
    obtain ⟨hp, hmem, hmin⟩ := List.find?_range'_eq_some.mp hfind
    have hj := List.mem_range'_1.mp hmem
    refine ⟨j, hj.1, by omega, by simpa using hp, ?_, h.symm⟩
    intro k hk1 hk2
    simpa using hmin k hk1 hk2

/-- C4 witness: at `(0, 1, 1)` the loop converges on iteration 2 and
returns `1 + 1e-30`, the `f` reached after iteration 1 (the state before
the converging update). -/
theorem inc_beta_cf_returns_pre_update_f_witness :
    inc_beta_cf (0 : ℚ) 1 1 = some (1 + 1 / 10 ^ 30) ∧
    ∃ i, 1 ≤ i ∧ i ≤ 999 ∧ cfConvAt (0 : ℚ) 1 1 i ∧
      (∀ j, 1 ≤ j → j < i → ¬ cfConvAt (0 : ℚ) 1 1 j) ∧
      (1 + 1 / 10 ^ 30 : ℚ) = (cfState (0 : ℚ) 1 1 (i - 1)).1 :=
  ⟨by decide, inc_beta_cf_returns_pre_update_f 0 1 1 (1 + 1 / 10 ^ 30) (by decide)⟩

set_option maxRecDepth 100000 in
set_option maxHeartbeats 1000000 in
/-- C4 counterexample: at `(1/100, 1, 1/2)` the loop converges (the result
is a value), and the value the source returns differs from the one the
claim describes (`inc_beta_cf_spec`, which includes the final `c·d`
factor). -/
theorem inc_beta_cf_return_excludes_final_factor :
    (inc_beta_cf ((1 : ℚ) / 100) 1 (1 / 2)).isSome = true ∧
    inc_beta_cf ((1 : ℚ) / 100) 1 (1 / 2) ≠ inc_beta_cf_spec ((1 : ℚ) / 100) 1 (1 / 2) := by
  constructor <;> decide

end NumThms

section SummaryThms

variable {α : Type} [LinearOrderedField α] [FloorRing α]
variable [DecidableRel ((· < ·) : α → α → Prop)]
variable [DecidableRel ((· ≤ ·) : α → α → Prop)]

/-- `Summarizer::new` fails with `EmptySample` exactly on the empty slice. -/
theorem Summarizer.new_eq_empty_iff (l : List (F α)) :
    Summarizer.new l = .error .emptySample ↔ l = [] := by
  unfold Summarizer.new
  by_cases he : l.isEmpty
  · simp [he, List.isEmpty_iff.mp he]
  · have : l ≠ [] := by simpa [List.isEmpty_iff] using he
    by_cases hb : l.any (fun x => ! x.isFinite) <;> simp [he, hb, this]

/-- `Summarizer::new` fails with `BadSample` exactly on a non-empty slice
holding a non-finite element. -/
theorem Summarizer.new_eq_bad_iff (l : List (F α)) :
    Summarizer.new l = .error .badSample ↔ l ≠ [] ∧ ∃ x ∈ l, ¬ x.isFinite = true := by
  unfold Summarizer.new
  by_cases he : l.isEmpty
  · simp [he, List.isEmpty_iff.mp he]
  · have hne : l ≠ [] := by simpa [List.isEmpty_iff] using he
    by_cases hb : l.any (fun x => ! x.isFinite)
    · simp only [he, if_false, hb, if_true, Bool.not_eq_true]
      simp only [List.any_eq_true, Bool.not_eq_true'] at hb
      simpa [hne] using hb
    · simp only [he, if_false, hb, if_false]
      simp only [List.any_eq_true, Bool.not_eq_true', not_exists] at hb
      constructor
      · intro h; exact absurd h (by simp)
      · rintro ⟨-, x, hx, hfx⟩
        have := hb x  -- x ∈ l → ¬ isFinite x = false
        simp only [not_and] at this
        exact absurd (by simpa using this hx) hfx

/-- On a non-empty, all-finite slice `Summarizer::new` succeeds with the
sorted value list. -/
theorem Summarizer.new_eq_ok (l : List (F α)) (hne : l ≠ [])
    (hfin : ∀ x ∈ l, x.isFinite = true) :
    Summarizer.new l = .ok ⟨List.insertionSort (· ≤ ·) (l.map F.val)⟩ := by
  unfold Summarizer.new
  have he : ¬ l.isEmpty := by simpa [List.isEmpty_iff] using hne
  have hb : ¬ l.any (fun x => ! x.isFinite) := by
    simp only [List.any_eq_true, Bool.not_eq_true', not_exists]
    intro x
    simp only [not_and]
    intro hx
    simp [hfin x hx]
  simp [he, hb]

/-- `Summarizer::new` succeeds exactly on non-empty all-finite slices. -/
theorem Summarizer.new_ok_iff (l : List (F α)) :
    (∃ s, Summarizer.new l = .ok s) ↔ l ≠ [] ∧ ∀ x ∈ l, x.isFinite = true := by
  constructor
  · rintro ⟨s, hs⟩
    unfold Summarizer.new at hs
    by_cases he : l.isEmpty
    · simp [he] at hs
    · by_cases hb : l.any (fun x => ! x.isFinite)
      · simp [he, hb] at hs
      · refine ⟨by simpa [List.isEmpty_iff] using he, ?_⟩
        intro x hx
        simp only [List.any_eq_true, Bool.not_eq_true', not_exists] at hb
        have := hb x
        simp only [not_and] at this
        simpa using this hx
  · rintro ⟨hne, hfin⟩
    exact ⟨_, Summarizer.new_eq_ok l hne hfin⟩

/-- Data of a constructed summarizer: the sorted finite values, as long as
the input, non-empty. -/
theorem Summarizer.new_ok_data {l : List (F α)} {s : Summarizer α}
    (h : Summarizer.new l = .ok s) :
    s.data = List.insertionSort (· ≤ ·) (l.map F.val) ∧
      s.data.length = l.length ∧ s.data ≠ [] := by
  have hok : ∃ s, Summarizer.new l = .ok s := ⟨s, h⟩
  obtain ⟨hne, hfin⟩ := (Summarizer.new_ok_iff l).mp hok
  rw [Summarizer.new_eq_ok l hne hfin] at h
  cases h
  refine ⟨rfl, ?_, ?_⟩
  · calc (List.insertionSort (· ≤ ·) (l.map F.val)).length
        = (l.map F.val).length := (List.perm_insertionSort _ _).length_eq
      _ = l.length := List.length_map _ _
  · have hlen : (List.insertionSort (· ≤ ·) (l.map F.val)).length ≠ 0 := by
      rw [(List.perm_insertionSort _ _).length_eq, List.length_map]
      simpa [List.length_eq_zero] using hne
    show List.insertionSort (· ≤ ·) (l.map F.val) ≠ []
    intro hcontra
    rw [hcontra] at hlen
    exact hlen rfl

/-- `percentile(0)` returns `data[0]` exactly: the rank is `0`, the
fractional part is `0`, and both the `p = 1` shortcut (for singletons) and
the interpolation collapse onto index `0`. -/
theorem Summarizer.percentile_zero (s : Summarizer α) :
    s.percentile 0 = .ok s.min := by
  unfold Summarizer.percentile
  rw [if_neg (by norm_num)]
  simp only [mul_zero, Int.floor_zero, Int.toNat_zero, Int.fract_zero, zero_mul,
    add_zero, zero_add]
  split <;> rfl

/-- `percentile(1)` on a non-empty sample returns `data[len − 1]` exactly:
the rank is the integer `len − 1`, so the out-of-bounds guard fires and
returns the maximum directly. -/
theorem Summarizer.percentile_one (s : Summarizer α) (hne : s.data ≠ []) :
    s.percentile 1 = .ok s.max := by
  have hn1 : 1 ≤ s.data.length := List.length_pos.mpr hne
  unfold Summarizer.percentile
  rw [if_neg (by norm_num)]
  have hsize : s.size - 1 = ((s.data.length - 1 : ℕ) : α) := by
    unfold Summarizer.size
    rw [Nat.cast_sub hn1]
    norm_num
  simp only [mul_one, hsize, Int.floor_natCast, Int.toNat_natCast, Int.fract_natCast]
  rw [if_pos (by omega)]
  rfl

/-- Monotone access into a sorted list through `getD`. -/
theorem sorted_getD_mono {l : List α} (hsort : l.Sorted (· ≤ ·)) {i j : ℕ}
    (hij : i ≤ j) (hj : j < l.length) : l.getD i 0 ≤ l.getD j 0 := by
  have hi : i < l.length := lt_of_le_of_lt hij hj
  rw [List.getD_eq_getElem l 0 hi, List.getD_eq_getElem l 0 hj]
  have := hsort.rel_get_of_le (a := ⟨i, hi⟩) (b := ⟨j, hj⟩) (by simpa using hij)
  simpa [List.get_eq_getElem] using this

/-- On a sorted non-empty sample, `percentile(p)` for `p ∈ [0, 1]` succeeds
and its value lies between `data[0]` and `data[len − 1]`. -/
theorem Summarizer.percentile_mem (s : Summarizer α) (p : α)
    (hsort : s.data.Sorted (· ≤ ·)) (hne : s.data ≠ [])
    (hp0 : 0 ≤ p) (hp1 : p ≤ 1) :
    ∃ v, s.percentile p = .ok v ∧ s.min ≤ v ∧ v ≤ s.max := by
  have hn1 : 1 ≤ s.data.length := List.length_pos.mpr hne
  have hcast : s.size - 1 = ((s.data.length - 1 : ℕ) : α) := by
    unfold Summarizer.size
    rw [Nat.cast_sub hn1]
    norm_num
  have hsize1 : (0 : α) ≤ s.size - 1 := by
    rw [hcast]; positivity
  have hrank0 : 0 ≤ (s.size - 1) * p := mul_nonneg hsize1 hp0
  have hrank_le : (s.size - 1) * p ≤ ((s.data.length - 1 : ℕ) : α) := by
    rw [← hcast]
    exact mul_le_of_le_one_right hsize1 hp1
  have hfl_le : ⌊(s.size - 1) * p⌋ ≤ ((s.data.length - 1 : ℕ) : ℤ) := by
    have := Int.floor_le_floor hrank_le
    rwa [Int.floor_natCast] at this
  have hi_le : ⌊(s.size - 1) * p⌋.toNat ≤ s.data.length - 1 := Int.toNat_le.mpr hfl_le
  have hfr0 : 0 ≤ Int.fract ((s.size - 1) * p) := Int.fract_nonneg _
  have hfr1 : Int.fract ((s.size - 1) * p) ≤ 1 := le_of_lt (Int.fract_lt_one _)
  unfold Summarizer.percentile
  rw [if_neg (by push_neg; exact ⟨hp0, hp1⟩)]
  simp only []
  by_cases hj : ⌊(s.size - 1) * p⌋.toNat + 1 = s.data.length
  · rw [if_pos hj]
    refine ⟨_, rfl, ?_, le_of_eq ?_⟩
    · exact sorted_getD_mono hsort (Nat.zero_le _) (by omega)
    · show s.data.getD ⌊(s.size - 1) * p⌋.toNat 0 = s.max
      unfold Summarizer.max
      rw [show s.data.length - 1 = ⌊(s.size - 1) * p⌋.toNat by omega]
  · rw [if_neg hj]
    have hjlt : ⌊(s.size - 1) * p⌋.toNat + 1 < s.data.length := by omega
    have hxij : s.data.getD ⌊(s.size - 1) * p⌋.toNat 0 ≤
        s.data.getD (⌊(s.size - 1) * p⌋.toNat + 1) 0 :=
      sorted_getD_mono hsort (Nat.le_succ _) hjlt
    have hmin : s.min ≤ s.data.getD ⌊(s.size - 1) * p⌋.toNat 0 :=
      sorted_getD_mono hsort (Nat.zero_le _) (by omega)
    have hmax : s.data.getD (⌊(s.size - 1) * p⌋.toNat + 1) 0 ≤ s.max := by
      have := sorted_getD_mono hsort
        (show ⌊(s.size - 1) * p⌋.toNat + 1 ≤ s.data.length - 1 by omega) (by omega)
      exact this
    have hstep : Int.fract ((s.size - 1) * p) *
        (s.data.getD (⌊(s.size - 1) * p⌋.toNat + 1) 0 -
          s.data.getD ⌊(s.size - 1) * p⌋.toNat 0) ≤
        s.data.getD (⌊(s.size - 1) * p⌋.toNat + 1) 0 -
          s.data.getD ⌊(s.size - 1) * p⌋.toNat 0 :=
      mul_le_of_le_one_left (by linarith) hfr1
    refine ⟨_, rfl, ?_, ?_⟩
    · have : 0 ≤ Int.fract ((s.size - 1) * p) *
          (s.data.getD (⌊(s.size - 1) * p⌋.toNat + 1) 0 -
            s.data.getD ⌊(s.size - 1) * p⌋.toNat 0) :=
        mul_nonneg hfr0 (by linarith)
      linarith
    · linarith

/-- C6: for every successfully constructed summarizer (non-empty, all-finite
sample), `percentile(0.0)` returns `Ok` of `min()` and `percentile(1.0)`
returns `Ok` of `max()`, exactly. -/
theorem percentile_boundaries_exact (l : List (F ℚ)) (s : Summarizer ℚ)
    (h : Summarizer.new l = .ok s) :
    s.percentile 0 = .ok s.min ∧ s.percentile 1 = .ok s.max := by
  obtain ⟨-, -, hne⟩ := Summarizer.new_ok_data h
  exact ⟨Summarizer.percentile_zero s, Summarizer.percentile_one s hne⟩

/-- C6 witness: the sample `[3, 1]` sorts to `[1, 3]`; its 0th percentile is
its minimum `1` and its 100th percentile is its maximum `3`. -/
theorem percentile_boundaries_exact_witness :
    (Summarizer.mk [(1 : ℚ), 3]).percentile 0 = .ok (Summarizer.mk [(1 : ℚ), 3]).min ∧
    (Summarizer.mk [(1 : ℚ), 3]).percentile 1 = .ok (Summarizer.mk [(1 : ℚ), 3]).max :=
  percentile_boundaries_exact [F.fin 3, F.fin 1] ⟨[1, 3]⟩ (by decide)

/-- C8: for every successfully constructed summarizer and `p ∈ [0, 1]`,
`percentile(p)` succeeds and its value lies between `min()` and `max()`
inclusive. -/
theorem percentile_between_min_and_max (l : List (F ℚ)) (s : Summarizer ℚ) (p : ℚ)
    (h : Summarizer.new l = .ok s) (hp0 : 0 ≤ p) (hp1 : p ≤ 1) :
    ∃ v, s.percentile p = .ok v ∧ s.min ≤ v ∧ v ≤ s.max := by
  obtain ⟨hdata, -, hne⟩ := Summarizer.new_ok_data h
  have hsort : s.data.Sorted (· ≤ ·) := by
    rw [hdata]
    exact List.sorted_insertionSort _ _
  exact Summarizer.percentile_mem s p hsort hne hp0 hp1

/-- C8 witness: on the sample `[2, 0, 1]` (sorted `[0, 1, 2]`) the
33⅓rd percentile exists and lies between the minimum and the maximum. -/
theorem percentile_between_min_and_max_witness :
    ∃ v, (Summarizer.mk [(0 : ℚ), 1, 2]).percentile (1 / 3) = .ok v ∧
      (Summarizer.mk [(0 : ℚ), 1, 2]).min ≤ v ∧ v ≤ (Summarizer.mk [(0 : ℚ), 1, 2]).max :=
  percentile_between_min_and_max [F.fin 2, F.fin 0, F.fin 1] ⟨[0, 1, 2]⟩ (1 / 3)
    (by decide) (by norm_num) (by norm_num)

/-- C7: `Summarizer::new` fails with `EmptySample` iff the slice is empty,
fails with `BadSample` iff the slice is non-empty and holds a non-finite
element, succeeds otherwise; and `Summary::new` threads exactly the same
failures through. -/
theorem construction_error_contract (l : List (F ℝ)) :
    (Summarizer.new l = .error .emptySample ↔ l = []) ∧
    (Summarizer.new l = .error .badSample ↔ l ≠ [] ∧ ∃ x ∈ l, ¬ x.isFinite = true) ∧
    ((∃ s, Summarizer.new l = .ok s) ↔ l ≠ [] ∧ ∀ x ∈ l, x.isFinite = true) ∧
    (∀ e, Summary.new l = .error e ↔ Summarizer.new l = .error e) ∧
    ((∃ t, Summary.new l = .ok t) ↔ ∃ s, Summarizer.new l = .ok s) := by
  refine ⟨Summarizer.new_eq_empty_iff l, Summarizer.new_eq_bad_iff l,
    Summarizer.new_ok_iff l, ?_, ?_⟩
  · intro e
    unfold Summary.new
    cases Summarizer.new l <;> simp [Except.map]
  · unfold Summary.new
    cases Summarizer.new l <;> simp [Except.map]

/-- C5: Welch's t-test returns `t = (m1 − m2)/sqrt(var1/n1 + var2/n2)`, the
continuous Welch–Satterthwaite degrees of freedom, and
`p = 1 − (1 − inc_beta(df/(df + t²), df/2, 1/2))`, propagating every failure
of the special-function layer unchanged (through the `map`s). -/
theorem welch_t_test_formula (s1 s2 : Summary) (gas : ℕ) :
    welch_t_test gas s1 s2 =
      (let t : ℝ := (s1.mean - s2.mean) /
        Real.sqrt (s1.unbiased_variance / s1.size + s2.unbiased_variance / s2.size)
       let df : ℝ := (s1.unbiased_variance / s1.size + s2.unbiased_variance / s2.size) ^ 2 /
        (s1.unbiased_variance ^ 2 / (s1.size ^ 2 * (s1.size - 1)) +
         s2.unbiased_variance ^ 2 / (s2.size ^ 2 * (s2.size - 1)))
       (inc_beta gas (df / (df + t ^ 2)) (df / 2) (1 / 2)).map
         (fun r => r.map (fun ib => { p := 1 - (1 - ib), t := t, df := df }))) := by
  unfold welch_t_test welch_t_statistic welch_satterthwaite_df t_test_2_sided t_atv
  simp only [Option.map_map, sq_abs, Function.comp]
  norm_num
  have hhalf : ∀ y : ℝ, 1 / 2 * y = y / 2 := fun y => by ring
  rw [hhalf]
  congr 1
  funext r
  cases r with
  | error e => rfl
  | ok ib =>
    show Except.ok _ = Except.ok _
    norm_num

/-- Summation by index through `getD` over the two projected value lists
equals a single summation over the pairs. -/
theorem sum_range_getD_pair (mx my : ℝ) :
    ∀ (data : List (F ℝ × F ℝ)) (n : ℕ), n = data.length →
      ((List.range n).map (fun i =>
          ((data.map (F.val ∘ Prod.fst)).getD i 0 - mx) *
          ((data.map (F.val ∘ Prod.snd)).getD i 0 - my))).sum =
        (data.map (fun q => (q.1.val - mx) * (q.2.val - my))).sum := by
  intro data
  induction data with
  | nil => intro n hn; subst hn; simp
  | cons p t ih =>
    intro n hn
    subst hn
    simp only [List.map_cons, List.length_cons, List.range_succ_eq_map, List.map_map,
      List.sum_cons, List.getD_cons_zero]
    congr 1
    calc (List.map ((fun i =>
            ((F.val p.1 :: t.map (F.val ∘ Prod.fst)).getD i 0 - mx) *
            ((F.val p.2 :: t.map (F.val ∘ Prod.snd)).getD i 0 - my)) ∘ Nat.succ)
          (List.range t.length)).sum
        = (List.map (fun i =>
            ((t.map (F.val ∘ Prod.fst)).getD i 0 - mx) *
            ((t.map (F.val ∘ Prod.snd)).getD i 0 - my)) (List.range t.length)).sum := by
          congr 1
      _ = (t.map (fun q => (q.1.val - mx) * (q.2.val - my))).sum := ih t.length rfl

/-- The mean of a constructed summarizer is the mean of the raw values. -/
theorem mean_insertionSort (xv : List ℝ) :
    (Summarizer.mk (List.insertionSort (· ≤ ·) xv)).mean = xv.sum / (xv.length : ℝ) := by
  unfold Summarizer.mean Summarizer.size
  show (List.insertionSort (· ≤ ·) xv).sum / ((List.insertionSort (· ≤ ·) xv).length : ℝ) = _
  rw [(List.perm_insertionSort _ xv).sum_eq, (List.perm_insertionSort _ xv).length_eq]

/-- The unbiased variance of a constructed summarizer, over the raw values. -/
theorem variance_insertionSort (xv : List ℝ) :
    (Summarizer.mk (List.insertionSort (· ≤ ·) xv)).unbiased_variance =
      (1 / ((xv.length : ℝ) - 1)) *
        ((xv.map (fun v => (v - xv.sum / (xv.length : ℝ)) ^ 2)).sum) := by
  unfold Summarizer.unbiased_variance Summarizer.size
  rw [mean_insertionSort]
  rw [((List.perm_insertionSort _ xv).map (fun v => (v - xv.sum / (xv.length : ℝ)) ^ 2)).sum_eq,
    (List.perm_insertionSort _ xv).length_eq]

/-- C9: on every non-empty all-finite paired sample, `LinearRegression::new`
returns the ordinary-least-squares fit: Pearson
`r = Σ(xi − mean_x)(yi − mean_y) / ((n − 1)·std_x·std_y)`,
`slope = r·(std_y/std_x)`, `intercept = mean_y − slope·mean_x`, and
standard error `(slope/sqrt(n − 2))·sqrt(1/r² − 1)`. -/
theorem linear_regression_formula (data : List (F ℝ × F ℝ))
    (hne : data ≠ []) (hfin : ∀ q ∈ data, q.1.isFinite = true ∧ q.2.isFinite = true) :
    LinearRegression.new data =
      (let n : ℝ := (data.length : ℝ)
       let xv := data.map (fun q => q.1.val)
       let yv := data.map (fun q => q.2.val)
       let mean_x := xv.sum / n
       let mean_y := yv.sum / n
       let std_x := Real.sqrt ((1 / (n - 1)) * ((xv.map (fun v => (v - mean_x) ^ 2)).sum))
       let std_y := Real.sqrt ((1 / (n - 1)) * ((yv.map (fun v => (v - mean_y) ^ 2)).sum))
       let r := ((data.map (fun q => (q.1.val - mean_x) * (q.2.val - mean_y))).sum) /
         ((n - 1) * std_x * std_y)
       let slope := r * (std_y / std_x)
       .ok { intercept := mean_y - slope * mean_x
             r := r
             slope := slope
             standard_error := (slope / Real.sqrt (n - 2)) * Real.sqrt (1 / r ^ 2 - 1) }) := by
  have hxfin : ∀ q ∈ data.map Prod.fst, q.isFinite = true := by
    intro q hq
    simp only [List.mem_map] at hq
    obtain ⟨pq, hp, rfl⟩ := hq
    exact (hfin pq hp).1
  have hyfin : ∀ q ∈ data.map Prod.snd, q.isFinite = true := by
    intro q hq
    simp only [List.mem_map] at hq
    obtain ⟨pq, hp, rfl⟩ := hq
    exact (hfin pq hp).2
  have hxne : data.map Prod.fst ≠ [] := by simpa using hne
  have hyne : data.map Prod.snd ≠ [] := by simpa using hne
  unfold LinearRegression.new
  rw [if_neg (by simpa [List.isEmpty_iff] using hne)]
  unfold LinearRegression.simple_lr
  dsimp only []
  rw [Summarizer.new_eq_ok _ hxne hxfin, Summarizer.new_eq_ok _ hyne hyfin]
  simp only [Except.bind]
  unfold Summarizer.standard_deviation
  rw [List.map_map, List.map_map]
  rw [mean_insertionSort, mean_insertionSort, variance_insertionSort, variance_insertionSort]
  rw [sum_range_getD_pair _ _ data _ (by simp)]
  simp only [List.length_map, Function.comp]
  rfl

/-- C9 witness: the fit to `x = [1,2,3], y = [2,4,6]` yields slope 2,
intercept 0, r = 1 (and a zero standard error). -/
theorem linear_regression_scenario :
    LinearRegression.new [(F.fin 1, F.fin 2), (F.fin (2 : ℝ), F.fin 4), (F.fin 3, F.fin 6)] =
      .ok { intercept := 0, r := 1, slope := 2, standard_error := 0 } := by
  rw [linear_regression_formula _ (by simp)
    (by
      intro q hq
      simp only [List.mem_cons, List.not_mem_nil, or_false] at hq
      rcases hq with rfl | rfl | rfl <;> exact ⟨rfl, rfl⟩)]
  have h4 : Real.sqrt 4 = 2 := by
    rw [show (4 : ℝ) = 2 ^ 2 by norm_num]
    exact Real.sqrt_sq (by norm_num)
  simp only [List.map_cons, List.map_nil, List.sum_cons, List.sum_nil, List.length_cons,
    List.length_nil]
  norm_num [F.val]
  norm_num [h4, Real.sqrt_one, Real.sqrt_zero]

/-- C10: a non-empty paired sample with a non-finite coordinate anywhere is
rejected with `BadSample` (both marginals are validated through
`Summarizer::new`). -/
theorem linear_regression_bad_sample (data : List (F ℝ × F ℝ))
    (hne : data ≠ []) (hbad : ∃ q ∈ data, ¬ q.1.isFinite = true ∨ ¬ q.2.isFinite = true) :
    LinearRegression.new data = .error .badSample := by
  unfold LinearRegression.new
  rw [if_neg (by simpa [List.isEmpty_iff] using hne)]
  unfold LinearRegression.simple_lr
  dsimp only []
  by_cases hx : ∀ q ∈ data.map Prod.fst, q.isFinite = true
  · have hxne : data.map Prod.fst ≠ [] := by simpa using hne
    rw [Summarizer.new_eq_ok _ hxne hx]
    have hybad : data.map Prod.snd ≠ [] ∧ ∃ x ∈ data.map Prod.snd, ¬ x.isFinite = true := by
      refine ⟨by simpa using hne, ?_⟩
      obtain ⟨q, hq, hcase⟩ := hbad
      rcases hcase with h1 | h2
      · exact absurd (hx q.1 (List.mem_map_of_mem _ hq)) h1
      · exact ⟨q.2, List.mem_map_of_mem _ hq, h2⟩
    rw [(Summarizer.new_eq_bad_iff _).mpr hybad]
    rfl
  · push_neg at hx
    obtain ⟨q, hq, hbad1⟩ := hx
    have hxbad : Summarizer.new (data.map Prod.fst) = .error .badSample :=
      (Summarizer.new_eq_bad_iff _).mpr ⟨by simpa using hne, q, hq, by simpa using hbad1⟩
    rw [hxbad]
    rfl

/-- C10 witness: a single pair with a NaN predictor is rejected with
`BadSample`. -/
theorem linear_regression_bad_sample_witness :
    LinearRegression.new [(F.nan, F.fin (1 : ℝ))] = .error .badSample :=
  linear_regression_bad_sample _ (by simp)
    ⟨(F.nan, F.fin 1), by simp, Or.inl (by simp [F.isFinite])⟩

/-- C2 witness: at `x = 3/4, a = b = 1` the switch point is `1/2 < 3/4`, the
swapped argument `1/4` falls strictly below its own switch point, and two
units of fuel suffice for the evaluation to return. -/
theorem inc_beta_symmetric_branch_recurses_once_witness :
    (1 : ℝ) - 3 / 4 < (1 + 1) / (1 + 1 + 2) ∧
      ∀ gas : ℕ, inc_beta (gas + 2) (3 / 4) 1 1 ≠ none :=
  inc_beta_symmetric_branch_recurses_once (3 / 4) 1 1 (by norm_num) (by norm_num)
    (by norm_num) (by norm_num)

end SummaryThms

end Dent
